import Mathlib

/-!
# A caching DNS forwarder: `main.go`

A shallow embedding of the request pipeline of `main.go` (`parseQuery`, `parseTTL`,
`resolveUpstream`, `handleRequest`) and theorems about it.

Conventions of the embedding

* a byte is a `Fin 256`; a `[]byte` and a Go `string` are both a `List Byte`;
* Go `int` cursors are `Nat` (they only grow, and stay below `len + 261`);
* a function that can hit an index-out-of-range panic returns an `Option`, and `none`
  is the abnormal outcome: every index and slice expression of the source goes through
  `byteAt` and `sliceOf`, which check the bounds the Go runtime checks;
* the two `for` loops whose trip count is not known in advance take an iteration budget
  (`fuel`); the callers pass `len`, and an exhausted budget is reported as `none` as well;
* `time.Duration` is an `Int` number of nanoseconds, with the 64-bit wrap-around made
  explicit where the source multiplies; an instant is the `Int` reading of the monotonic
  clock in nanoseconds;
* the map `cache` is a partial function from keys to entries; one call of `handleRequest`
  is run in isolation (no other goroutine touches the map in between).
-/

namespace DnsResolver

/-! ## Bytes, slices and integers -/

/-- One octet. -/
abbrev Byte := Fin 256

/-- The index expression `p[i]`; `none` is the out-of-range panic. -/
def byteAt (p : List Byte) (i : Nat) : Option Byte := p[i]?

/-- The slice expression `p[lo:hi]`; `none` is the out-of-range panic. -/
def sliceOf (p : List Byte) (lo hi : Nat) : Option (List Byte) :=
  if lo ≤ hi ∧ hi ≤ p.length then some ((p.drop lo).take (hi - lo)) else none

/-- The call `binary.BigEndian.Uint16(b)`: panics when `b` has fewer than two bytes. -/
def beUint16 (b : List Byte) : Option Nat :=
  match b with
  | b0 :: b1 :: _ => some (b0.val * 256 + b1.val)
  | _ => none

/-- The call `binary.BigEndian.Uint32(b)`: panics when `b` has fewer than four bytes. -/
def beUint32 (b : List Byte) : Option Nat :=
  match b with
  | b0 :: b1 :: b2 :: b3 :: _ =>
    some (b0.val * 16777216 + b1.val * 65536 + b2.val * 256 + b3.val)
  | _ => none

/-- Reduction of an integer to the range of a signed 64-bit integer (two's complement). -/
def wrapInt64 (x : Int) : Int :=
  (x + 9223372036854775808) % 18446744073709551616 - 9223372036854775808

/-- The constant `time.Second`, in nanoseconds. -/
def second : Int := 1000000000

/-! ## parseQuery -/

/-- The `for i < len(packet)` loop of `parseQuery`. The result is the cursor `i` and the
labels `qnameParts` when the loop is left. -/
def parseQueryLoop (packet : List Byte) :
    Nat → Nat → List (List Byte) → Option (Nat × List (List Byte))
  | 0, i, qnameParts => if i < packet.length then none else some (i, qnameParts)
  | fuel + 1, i, qnameParts =>
    if i < packet.length then
      match byteAt packet i with
      | none => none
      | some b =>
        let length := b.val
        if length = 0 then some (i + 1, qnameParts)
        else if i + 1 + length > packet.length then some (i, qnameParts)
        else
          match sliceOf packet (i + 1) (i + 1 + length) with
          | none => none
          | some label => parseQueryLoop packet fuel (i + (length + 1)) (qnameParts ++ [label])
    else some (i, qnameParts)

/-- The call `strings.Join(parts, ".")`. -/
def joinDots (parts : List (List Byte)) : List Byte := List.intercalate [46] parts

/-- The function `parseQuery`: the dotted name and the query type of a packet. -/
def parseQuery (packet : List Byte) : Option (List Byte × Nat) :=
  match parseQueryLoop packet packet.length 12 [] with
  | none => none
  | some (i, qnameParts) =>
    let qname := joinDots qnameParts
    if i + 2 ≤ packet.length then
      match sliceOf packet i (i + 2) with
      | none => none
      | some s =>
        match beUint16 s with
        | none => none
        | some qtype => some (qname, qtype)
    else some (qname, 0)

/-! ## parseTTL -/

/-- The inner loop of `parseTTL`, `for i < len(resp) && resp[i] != 0`: the cursor when
the loop is left. -/
def skipName (resp : List Byte) : Nat → Nat → Option Nat
  | 0, i =>
    if i < resp.length then
      match byteAt resp i with
      | none => none
      | some b => if b.val ≠ 0 then none else some i
    else some i
  | fuel + 1, i =>
    if i < resp.length then
      match byteAt resp i with
      | none => none
      | some b =>
        if b.val ≠ 0 then
          let jump := b.val + 1
          skipName resp fuel (i + jump)
        else some i
    else some i

/-- How the loop over the questions of `parseTTL` is left. -/
inductive Skip where
  /-- An index out of range. -/
  | panic
  /-- The statement `return 0` inside the loop: the cursor reached the end of the reply. -/
  | short
  /-- All questions were skipped and the cursor is at `i`. -/
  | done (i : Nat)
  deriving DecidableEq, Repr

/-- The loop `for q := 0; q < int(qdCount); q++` of `parseTTL`, with `n` the number of
iterations still to run and `i` the cursor. -/
def skipQuestions (resp : List Byte) : Nat → Nat → Skip
  | 0, i => Skip.done i
  | n + 1, i =>
    match skipName resp resp.length i with
    | none => Skip.panic
    | some j => if j ≥ resp.length then Skip.short else skipQuestions resp n (j + 1 + 4)

/-- The function `parseTTL`: the lifetime, in nanoseconds, read from a reply. -/
def parseTTL (resp : List Byte) : Option Int :=
  if resp.length < 12 then some 0
  else
    match sliceOf resp 4 6 with
    | none => none
    | some hdr =>
      match beUint16 hdr with
      | none => none
      | some qdCount =>
        match skipQuestions resp qdCount 12 with
        | Skip.panic => none
        | Skip.short => some 0
        | Skip.done i =>
          if i + 10 ≥ resp.length then some 0
          else
            match sliceOf resp (i + 4) (i + 8) with
            | none => none
            | some s =>
              match beUint32 s with
              | none => none
              | some ttl => some (wrapInt64 ((ttl : Int) * second))

/-! ## The cache, the upstream exchange and handleRequest -/

/-- The struct `cacheEntry`. -/
structure cacheEntry where
  msg : List Byte
  timestamp : Int
  ttl : Int
  deriving DecidableEq, Repr

/-- The map `cache`: at most one entry under a key. -/
abbrev Cache := List Byte → Option cacheEntry

/-- The statement `delete(cache, key)`. -/
def Cache.delete (c : Cache) (key : List Byte) : Cache :=
  fun k => if k = key then none else c k

/-- The statement `cache[key] = e`. -/
def Cache.store (c : Cache) (key : List Byte) (e : cacheEntry) : Cache :=
  fun k => if k = key then some e else c k

/-- Saturation to the range of a signed 64-bit integer. -/
def clampInt64 (x : Int) : Int := max (-9223372036854775808) (min 9223372036854775807 x)

/-- The call `time.Since(t)` evaluated when the monotonic clock reads `now`: the
difference of the two readings, saturated to the range of a `time.Duration`. -/
def since (now t : Int) : Int := clampInt64 (now - t)

/-- Decimal digits of a number, most significant first, in ASCII: what the verb `%d`
prints for an unsigned integer. -/
def decimalAux : Nat → Nat → List Byte
  | 0, _ => []
  | fuel + 1, n =>
    if n < 10 then [Fin.ofNat (48 + n)]
    else decimalAux fuel (n / 10) ++ [Fin.ofNat (48 + n % 10)]

/-- The digits of `n`; a budget of `n + 1` digits is never used up. -/
def decimal (n : Nat) : List Byte := decimalAux (n + 1) n

/-- The call `fmt.Sprintf("%s:%d", qname, qtype)`. -/
def sprintfKey (qname : List Byte) (qtype : Nat) : List Byte :=
  qname ++ [58] ++ decimal qtype

/-- What the network does to one upstream exchange of `resolveUpstream`. -/
inductive Upstream where
  /-- The call `net.Dial` fails. -/
  | dialError
  /-- The call `conn.Write` fails. -/
  | writeError
  /-- The call `conn.Read` fails. -/
  | readError
  /-- The call `conn.Read` succeeds on this datagram. -/
  | reply (datagram : List Byte)
  deriving DecidableEq, Repr

/-- The function `resolveUpstream`. The first component is `none` for the `nil` slice.
A datagram is read into a buffer of 512 bytes, so `n` is at most 512. -/
def resolveUpstream (_query : List Byte) (net : Upstream) : Option (Option (List Byte) × Int) :=
  match net with
  | Upstream.dialError => some (none, 0)
  | Upstream.writeError => some (none, 0)
  | Upstream.readError => some (none, 0)
  | Upstream.reply datagram =>
    let resp := datagram.take 512
    match parseTTL resp with
    | none => none
    | some ttl => some (some resp, ttl)

/-- The call `copy(dst, src)`: the first `min (len dst) (len src)` bytes of `dst` are
overwritten. -/
def copyBytes (dst src : List Byte) : List Byte :=
  src.take dst.length ++ dst.drop src.length

/-- What one call of `handleRequest` does. -/
structure Effects where
  /-- The map `cache` afterwards. -/
  cache : Cache
  /-- The datagrams passed to `conn.WriteToUDP`, in order. -/
  sent : List (List Byte)
  /-- Whether `resolveUpstream` was called. -/
  forwarded : Bool

/-- The cache-hit branch of `handleRequest`: the copy of the stored message with the
transaction id of the query. -/
def hitResponse (msg query : List Byte) : Option (List Byte) :=
  let resp := copyBytes (List.replicate msg.length 0) msg
  if resp.length ≥ 2 ∧ query.length ≥ 2 then
    match sliceOf resp 0 2, sliceOf query 0 2 with
    | some dst, some src => some (copyBytes dst src ++ resp.drop 2)
    | _, _ => none
  else some resp

/-- The part of `handleRequest` from the call of `resolveUpstream` on: `tInsert` is the
reading of `time.Now()` at the insertion. -/
def forwardMiss (c : Cache) (cacheKey query : List Byte) (tInsert : Int) (net : Upstream) :
    Option Effects :=
  match resolveUpstream query net with
  | none => none
  | some (none, _) => some { cache := c, sent := [], forwarded := true }
  | some (some resp, ttl) =>
    let respCopy := copyBytes (List.replicate resp.length 0) resp
    some { cache := c.store cacheKey { msg := respCopy, timestamp := tInsert, ttl := ttl },
           sent := [resp], forwarded := true }

/-- The function `handleRequest`, run on the map `c`: `tLookup` is the clock reading
when `time.Since` is evaluated, `tInsert` the reading of `time.Now()` at the insertion,
`net` what the network does if the upstream server is asked. -/
def handleRequest (c : Cache) (query : List Byte) (tLookup tInsert : Int) (net : Upstream) :
    Option Effects :=
  match parseQuery query with
  | none => none
  | some (qname, qtype) =>
    let cacheKey := sprintfKey qname qtype
    match c cacheKey with
    | some entry =>
      if since tLookup entry.timestamp < entry.ttl then
        match hitResponse entry.msg query with
        | none => none
        | some resp => some { cache := c, sent := [resp], forwarded := false }
      else forwardMiss (c.delete cacheKey) cacheKey query tInsert net
    | none => forwardMiss c cacheKey query tInsert net

/-! ## Wire format used to state the theorems -/

/-- The number written by a string of decimal digits. -/
def decimalValue (ds : List Byte) : Nat :=
  ds.foldl (fun acc d => acc * 10 + (d.val - 48)) 0

/-- ASCII text as bytes. -/
def ascii (s : String) : List Byte := s.toList.map (fun ch => Fin.ofNat ch.toNat)

/-- Labels on the wire: each one after its length byte. -/
def encodeLabels (labels : List (List Byte)) : List Byte :=
  match labels with
  | [] => []
  | l :: ls => (Fin.ofNat l.length :: l) ++ encodeLabels ls

/-- A 16-bit number on the wire, big-endian. -/
def be16 (n : Nat) : List Byte := [Fin.ofNat (n / 256), Fin.ofNat n]

/-- A 32-bit number on the wire, big-endian. -/
def be32 (n : Nat) : List Byte :=
  [Fin.ofNat (n / 16777216), Fin.ofNat (n / 65536), Fin.ofNat (n / 256), Fin.ofNat n]

/-- The big-endian 16-bit value held by bytes `i` and `i + 1` of `p`. -/
def be16At (p : List Byte) (i : Nat) : Nat :=
  (p.getD i 0).val * 256 + (p.getD (i + 1) 0).val

/-- The big-endian 32-bit value held by bytes `i` to `i + 3` of `p`. -/
def be32At (p : List Byte) (i : Nat) : Nat :=
  (p.getD i 0).val * 16777216 + (p.getD (i + 1) 0).val * 65536
    + (p.getD (i + 2) 0).val * 256 + (p.getD (i + 3) 0).val

/-- One entry of the question section: the labels of the name, the type and the class. -/
structure Question where
  labels : List (List Byte)
  qtype : Nat
  qclass : Nat

/-- A question on the wire: the name, its closing zero byte, then type and class. -/
def encodeQuestion (q : Question) : List Byte :=
  encodeLabels q.labels ++ [0] ++ be16 q.qtype ++ be16 q.qclass

/-- A question section on the wire. -/
def encodeQuestions (qs : List Question) : List Byte :=
  match qs with
  | [] => []
  | q :: rest => encodeQuestion q ++ encodeQuestions rest

/-- A resource record on the wire whose owner name is a compression pointer to offset 12:
pointer, type, class, TTL, RDLENGTH and RDATA. -/
def encodeAnswer (rtype rclass ttl : Nat) (rdata : List Byte) : List Byte :=
  [0xC0, 0x0C] ++ be16 rtype ++ be16 rclass ++ be32 ttl ++ be16 rdata.length ++ rdata

/-- The header of a query: id `0xABCD`, recursion desired, one question. -/
def queryHeader : List Byte := [0xAB, 0xCD, 1, 0, 0, 1, 0, 0, 0, 0, 0, 0]

/-- The header of a reply: id `0xABCD`, flags `0x8180`, one question, one answer. -/
def replyHeader : List Byte := [0xAB, 0xCD, 0x81, 0x80, 0, 1, 0, 1, 0, 0, 0, 0]

/-- The question `example.com IN A`. -/
def exampleQuestion : Question :=
  { labels := [ascii "example", ascii "com"], qtype := 1, qclass := 1 }

/-- The query for `example.com IN A`. -/
def exampleQuery : List Byte := queryHeader ++ encodeQuestion exampleQuestion

/-- A reply to `exampleQuery`: one A record, TTL 300, address 93.184.216.34. -/
def exampleReply : List Byte :=
  replyHeader ++ encodeQuestion exampleQuestion ++ encodeAnswer 1 1 300 [93, 184, 216, 34]

/-- A reply that stops 8 bytes after its question section: type, class and a TTL of 300. -/
def eightByteReply : List Byte :=
  replyHeader ++ encodeQuestions [exampleQuestion] ++ (be16 1 ++ be16 1 ++ be32 300)

/-- A reply whose only question stops inside its second label. -/
def cutReply : List Byte := replyHeader ++ [7, 101, 120, 97]

/-- A query whose name is the label `www` followed by a label that announces 7 bytes
of which only 2 are in the packet. -/
def truncatedQuery : List Byte := queryHeader ++ encodeLabels [ascii "www"] ++ [7, 101, 120]

/-- A cache whose only entry, under `example.com:1`, holds a stored reply of one byte,
inserted at time 0 with a lifetime of 300 seconds. -/
def oneByteCache : Cache :=
  fun k => if k = ascii "example.com:1" then
    some { msg := [0x11], timestamp := 0, ttl := 300 * second } else none

/-- A cache whose only entry, under `:0`, holds `exampleReply`, inserted at time 0 with
a lifetime of 300 seconds. -/
def emptyNameCache : Cache :=
  fun k => if k = ascii ":0" then
    some { msg := exampleReply, timestamp := 0, ttl := 300 * second } else none

/-- A cache whose only entry, under `example.com:1`, holds `exampleReply` with another
transaction id, inserted at time 0 with a lifetime of 300 seconds. -/
def exampleCache : Cache :=
  fun k => if k = ascii "example.com:1" then
    some { msg := [0x12, 0x34] ++ exampleReply.drop 2, timestamp := 0, ttl := 300 * second }
  else none

/-- The cache with no entry. -/
def emptyCache : Cache := fun _ => none

/-- The reply `exampleReply` under the transaction id `0x1234`. -/
def otherIdReply : List Byte := [0x12, 0x34] ++ exampleReply.drop 2

/-- A cache whose only entry, under `example.com:1`, holds `eightByteReply`, inserted at
5 seconds with a lifetime of zero. -/
def zeroTtlCache : Cache :=
  emptyCache.store (ascii "example.com:1")
    { msg := eightByteReply, timestamp := 5 * second, ttl := 0 }

/-! # Theorems -/

/-! ## Lemmas on bytes and slices -/

theorem byteAt_append_cons (pre rest : List Byte) (b : Byte) :
    byteAt (pre ++ b :: rest) pre.length = some b := by
  rw [byteAt, List.getElem?_append_right (Nat.le_refl _)]
  simp

theorem sliceOf_append (pre mid rest : List Byte) :
    sliceOf (pre ++ (mid ++ rest)) pre.length (pre.length + mid.length) = some mid := by
  simp [sliceOf]

theorem ofNat_val_of_lt {n : Nat} (h : n < 256) : (Fin.ofNat n : Byte).val = n := by
  simp [Fin.ofNat, Nat.mod_eq_of_lt h]

theorem beUint16_be16 {n : Nat} (h : n < 65536) : beUint16 (be16 n) = some n := by
  simp only [beUint16, be16, Fin.ofNat]
  congr 1
  show n / 256 % 256 * 256 + n % 256 = n
  omega

theorem length_be16 (n : Nat) : (be16 n).length = 2 := rfl

theorem length_le_encodeLabels (labels : List (List Byte)) :
    labels.length ≤ (encodeLabels labels).length := by
  induction labels with
  | nil => simp
  | cons l ls ih => simp [encodeLabels]; omega

/-! ## parseQuery on well-formed names -/

theorem parseQueryLoop_labels (labels : List (List Byte)) :
    ∀ (pre rest : List Byte) (fuel : Nat) (parts : List (List Byte)),
      (∀ l ∈ labels, 1 ≤ l.length ∧ l.length ≤ 255) → labels.length < fuel →
      parseQueryLoop (pre ++ (encodeLabels labels ++ 0 :: rest)) fuel pre.length parts
        = some (pre.length + (encodeLabels labels).length + 1, parts ++ labels) := by
  induction labels with
  | nil =>
    intro pre rest fuel parts _ hf
    obtain ⟨f, rfl⟩ : ∃ f, fuel = f + 1 := ⟨fuel - 1, by simp at hf; omega⟩
    simp [parseQueryLoop, encodeLabels, byteAt_append_cons]
  | cons l ls ih =>
    intro pre rest fuel parts hl hf
    obtain ⟨f, rfl⟩ : ∃ f, fuel = f + 1 := ⟨fuel - 1, by simp at hf; omega⟩
    have hl1 := hl l (List.mem_cons_self _ _)
    have hval : (Fin.ofNat l.length : Byte).val = l.length := ofNat_val_of_lt (by omega)
    have hpk : pre ++ (encodeLabels (l :: ls) ++ 0 :: rest)
        = pre ++ Fin.ofNat l.length :: (l ++ (encodeLabels ls ++ 0 :: rest)) := by
      simp [encodeLabels]
    have hpk2 : pre ++ Fin.ofNat l.length :: (l ++ (encodeLabels ls ++ 0 :: rest))
        = (pre ++ [Fin.ofNat l.length]) ++ (l ++ (encodeLabels ls ++ 0 :: rest)) := by simp
    have hpk3 : pre ++ Fin.ofNat l.length :: (l ++ (encodeLabels ls ++ 0 :: rest))
        = (pre ++ Fin.ofNat l.length :: l) ++ (encodeLabels ls ++ 0 :: rest) := by simp
    have hslice : sliceOf (pre ++ Fin.ofNat l.length :: (l ++ (encodeLabels ls ++ 0 :: rest)))
        (pre.length + 1) (pre.length + 1 + l.length) = some l := by
      rw [hpk2]
      have := sliceOf_append (pre ++ [Fin.ofNat l.length]) l (encodeLabels ls ++ 0 :: rest)
      simpa using this
    have hrec := ih (pre ++ Fin.ofNat l.length :: l) rest f (parts ++ [l])
      (fun x hx => hl x (List.mem_cons_of_mem _ hx)) (by simp at hf; omega)
    rw [hpk]
    rw [parseQueryLoop]
    rw [byteAt_append_cons]
    simp only [hval, hslice]
    rw [if_pos (by simp), if_neg (by omega), if_neg (by simp; omega)]
    rw [hpk3]
    have hlen : pre.length + (l.length + 1) = (pre ++ Fin.ofNat l.length :: l).length := by simp
    rw [hlen, hrec]
    simp [encodeLabels]
    omega

/-- C1. On a well-formed query, that is a 12-byte header, the labels of a name (each of
1 to 63 bytes) each after its length byte, a zero byte, a 16-bit type in big-endian and
any further bytes, `parseQuery` returns the labels joined with dots and the type. -/
theorem parseQuery_valid (header : List Byte) (labels : List (List Byte)) (qtype : Nat)
    (rest : List Byte) (hh : header.length = 12)
    (hl : ∀ l ∈ labels, 1 ≤ l.length ∧ l.length ≤ 63) (ht : qtype < 65536) :
    parseQuery (header ++ encodeLabels labels ++ [0] ++ be16 qtype ++ rest)
      = some (joinDots labels, qtype) := by
  have hpk : header ++ encodeLabels labels ++ [0] ++ be16 qtype ++ rest
      = header ++ (encodeLabels labels ++ 0 :: (be16 qtype ++ rest)) := by simp
  have hloop := parseQueryLoop_labels labels header (be16 qtype ++ rest)
    (header ++ (encodeLabels labels ++ 0 :: (be16 qtype ++ rest))).length []
    (fun l h => ⟨(hl l h).1, by have := (hl l h).2; omega⟩)
    (by have := length_le_encodeLabels labels; simp; omega)
  have hslice : sliceOf (header ++ (encodeLabels labels ++ 0 :: (be16 qtype ++ rest)))
      (header.length + (encodeLabels labels).length + 1)
      (header.length + (encodeLabels labels).length + 1 + 2) = some (be16 qtype) := by
    have := sliceOf_append (header ++ (encodeLabels labels ++ [0])) (be16 qtype) rest
    simpa [length_be16, Nat.add_assoc] using this
  simp only [hh] at hslice hloop
  rw [hpk, parseQuery, hloop]
  simp only []
  rw [if_pos (by simp [length_be16, hh]; omega)]
  simp only [hslice, beUint16_be16 ht, List.nil_append]

/-- Witness of C1: the query for `example.com`, type 1. -/
theorem parseQuery_valid_witness :
    parseQuery ([0xAB, 0xCD, 1, 0, 0, 1, 0, 0, 0, 0, 0, 0]
        ++ encodeLabels [ascii "example", ascii "com"] ++ [0] ++ be16 1 ++ [0, 1])
      = some (ascii "example.com", 1) :=
  parseQuery_valid [0xAB, 0xCD, 1, 0, 0, 1, 0, 0, 0, 0, 0, 0] [ascii "example", ascii "com"] 1
    [0, 1] (by decide) (by decide) (by decide)

/-! ## Reading big-endian fields -/

theorem sliceOf_two (p : List Byte) (i : Nat) (h : i + 2 ≤ p.length) :
    ∃ s, sliceOf p i (i + 2) = some s ∧ beUint16 s = some (be16At p i) := by
  have h0 : i < p.length := by omega
  have h1 : i + 1 < p.length := by omega
  refine ⟨[p[i], p[i + 1]], ?_, ?_⟩
  · rw [sliceOf, if_pos ⟨by omega, h⟩, List.drop_eq_getElem_cons h0,
      List.drop_eq_getElem_cons h1, Nat.add_sub_cancel_left]
    simp only [List.take_succ_cons, List.take_zero]
  · simp [beUint16, be16At, List.getD_eq_getElem, h0, h1]

theorem sliceOf_four (p : List Byte) (i : Nat) (h : i + 4 ≤ p.length) :
    ∃ s, sliceOf p i (i + 4) = some s ∧ beUint32 s = some (be32At p i) := by
  have h0 : i < p.length := by omega
  have h1 : i + 1 < p.length := by omega
  have h2 : i + 2 < p.length := by omega
  have h3 : i + 3 < p.length := by omega
  refine ⟨[p[i], p[i + 1], p[i + 2], p[i + 3]], ?_, ?_⟩
  · rw [sliceOf, if_pos ⟨by omega, h⟩, List.drop_eq_getElem_cons h0,
      List.drop_eq_getElem_cons h1, List.drop_eq_getElem_cons h2,
      List.drop_eq_getElem_cons h3, Nat.add_sub_cancel_left]
    simp only [List.take_succ_cons, List.take_zero]
  · simp [beUint32, be32At, List.getD_eq_getElem, h0, h1, h2, h3]

theorem be32At_lt (p : List Byte) (i : Nat) : be32At p i < 4294967296 := by
  have h0 := (p.getD i 0).isLt
  have h1 := (p.getD (i + 1) 0).isLt
  have h2 := (p.getD (i + 2) 0).isLt
  have h3 := (p.getD (i + 3) 0).isLt
  unfold be32At
  omega

theorem wrapInt64_seconds {n : Nat} (h : n < 4294967296) :
    wrapInt64 ((n : Int) * second) = (n : Int) * second := by
  unfold wrapInt64 second
  omega

/-! ## parseTTL: the walk over the question section -/

theorem skipName_labels (labels : List (List Byte)) :
    ∀ (pre rest : List Byte) (fuel : Nat),
      (∀ l ∈ labels, 1 ≤ l.length ∧ l.length ≤ 255) → labels.length ≤ fuel →
      skipName (pre ++ (encodeLabels labels ++ 0 :: rest)) fuel pre.length
        = some (pre.length + (encodeLabels labels).length) := by
  induction labels with
  | nil =>
    intro pre rest fuel _ _
    cases fuel <;> simp [skipName, encodeLabels, byteAt_append_cons]
  | cons l ls ih =>
    intro pre rest fuel hl hf
    obtain ⟨f, rfl⟩ : ∃ f, fuel = f + 1 := ⟨fuel - 1, by simp at hf; omega⟩
    have hl1 := hl l (List.mem_cons_self _ _)
    have hval : (Fin.ofNat l.length : Byte).val = l.length := ofNat_val_of_lt (by omega)
    have hpk : pre ++ (encodeLabels (l :: ls) ++ 0 :: rest)
        = pre ++ Fin.ofNat l.length :: (l ++ (encodeLabels ls ++ 0 :: rest)) := by
      simp [encodeLabels]
    have hpk3 : pre ++ Fin.ofNat l.length :: (l ++ (encodeLabels ls ++ 0 :: rest))
        = (pre ++ Fin.ofNat l.length :: l) ++ (encodeLabels ls ++ 0 :: rest) := by simp
    have hrec := ih (pre ++ Fin.ofNat l.length :: l) rest f
      (fun x hx => hl x (List.mem_cons_of_mem _ hx)) (by simp at hf; omega)
    rw [hpk, skipName, byteAt_append_cons]
    simp only [hval]
    rw [if_pos (by simp), if_pos (by omega), hpk3]
    have hlen : pre.length + (l.length + 1) = (pre ++ Fin.ofNat l.length :: l).length := by simp
    rw [hlen, hrec]
    simp [encodeLabels]
    omega

theorem length_encodeQuestion (q : Question) :
    (encodeQuestion q).length = (encodeLabels q.labels).length + 5 := by
  simp [encodeQuestion, length_be16]

theorem skipQuestions_framed (qs : List Question) :
    ∀ (pre rest : List Byte),
      (∀ q ∈ qs, ∀ l ∈ q.labels, 1 ≤ l.length ∧ l.length ≤ 255) →
      skipQuestions (pre ++ (encodeQuestions qs ++ rest)) qs.length pre.length
        = Skip.done (pre.length + (encodeQuestions qs).length) := by
  induction qs with
  | nil => intro pre rest _; simp [skipQuestions, encodeQuestions]
  | cons q qs ih =>
    intro pre rest hl
    have hpk : pre ++ (encodeQuestions (q :: qs) ++ rest)
        = pre ++ (encodeLabels q.labels ++
            0 :: (be16 q.qtype ++ be16 q.qclass ++ (encodeQuestions qs ++ rest))) := by
      simp [encodeQuestions, encodeQuestion]
    have hpk2 : pre ++ (encodeLabels q.labels ++
            0 :: (be16 q.qtype ++ be16 q.qclass ++ (encodeQuestions qs ++ rest)))
        = (pre ++ encodeQuestion q) ++ (encodeQuestions qs ++ rest) := by
      simp [encodeQuestion]
    have hname := skipName_labels q.labels pre
      (be16 q.qtype ++ be16 q.qclass ++ (encodeQuestions qs ++ rest))
      (pre ++ (encodeLabels q.labels ++
            0 :: (be16 q.qtype ++ be16 q.qclass ++ (encodeQuestions qs ++ rest)))).length
      (hl q (List.mem_cons_self _ _))
      (by have := length_le_encodeLabels q.labels; simp; omega)
    have hrec := ih (pre ++ encodeQuestion q) rest
      (fun x hx => hl x (List.mem_cons_of_mem _ hx))
    rw [hpk, List.length_cons, skipQuestions, hname]
    simp only []
    rw [if_neg (by simp)]
    have hlen : pre.length + (encodeLabels q.labels).length + 1 + 4
        = (pre ++ encodeQuestion q).length := by
      simp [length_encodeQuestion]; omega
    rw [hlen, hpk2, hrec]
    simp [encodeQuestions]
    omega

theorem parseTTL_of_done (resp : List Byte) (p : Nat) (h12 : 12 ≤ resp.length)
    (hp : skipQuestions resp (be16At resp 4) 12 = Skip.done p) :
    parseTTL resp
      = some (if p + 10 ≥ resp.length then 0 else (be32At resp (p + 4) : Int) * second) := by
  obtain ⟨s, hs, hs2⟩ := sliceOf_two resp 4 (by omega)
  rw [parseTTL, if_neg (by omega), hs]
  simp only [hs2, hp]
  by_cases hlen : p + 10 ≥ resp.length
  · rw [if_pos hlen, if_pos hlen]
  · rw [if_neg hlen, if_neg hlen]
    obtain ⟨s4, hs4, hs42⟩ := sliceOf_four resp (p + 4) (by omega)
    have h8 : p + 4 + 4 = p + 8 := by omega
    rw [h8] at hs4
    rw [hs4]
    simp only [hs42, wrapInt64_seconds (be32At_lt _ _)]

/-! ## The parsers return on every input -/

theorem byteAt_of_lt (p : List Byte) (i : Nat) (h : i < p.length) :
    byteAt p i = some p[i] := by
  simp [byteAt, h]

theorem skipName_total (resp : List Byte) :
    ∀ (fuel i : Nat), resp.length ≤ i + fuel → ∃ j, skipName resp fuel i = some j := by
  intro fuel
  induction fuel with
  | zero =>
    intro i h
    refine ⟨i, ?_⟩
    rw [skipName, if_neg (by omega)]
  | succ f ih =>
    intro i h
    by_cases hi : i < resp.length
    · rw [skipName, if_pos hi, byteAt_of_lt resp i hi]
      by_cases hb : (resp[i]).val ≠ 0
      · simp only [if_pos hb]
        exact ih _ (by omega)
      · simp only [if_neg hb]
        exact ⟨i, rfl⟩
    · rw [skipName, if_neg hi]
      exact ⟨i, rfl⟩

theorem skipQuestions_ne_panic (resp : List Byte) :
    ∀ (n i : Nat), skipQuestions resp n i ≠ Skip.panic := by
  intro n
  induction n with
  | zero => intro i; simp [skipQuestions]
  | succ n ih =>
    intro i
    obtain ⟨j, hj⟩ := skipName_total resp resp.length i (by omega)
    rw [skipQuestions, hj]
    simp only []
    by_cases h : j ≥ resp.length
    · rw [if_pos h]; simp
    · rw [if_neg h]; exact ih _

theorem parseTTL_of_short (resp : List Byte)
    (hp : skipQuestions resp (be16At resp 4) 12 = Skip.short) : parseTTL resp = some 0 := by
  by_cases h12 : resp.length < 12
  · rw [parseTTL, if_pos h12]
  · obtain ⟨s, hs, hs2⟩ := sliceOf_two resp 4 (by omega)
    rw [parseTTL, if_neg h12, hs]
    simp only [hs2, hp]

theorem parseTTL_total (resp : List Byte) : ∃ d, parseTTL resp = some d := by
  by_cases h12 : resp.length < 12
  · exact ⟨0, by rw [parseTTL, if_pos h12]⟩
  · cases hq : skipQuestions resp (be16At resp 4) 12 with
    | panic => exact absurd hq (skipQuestions_ne_panic _ _ _)
    | short => exact ⟨0, parseTTL_of_short resp hq⟩
    | done p => exact ⟨_, parseTTL_of_done resp p (by omega) hq⟩

theorem sliceOf_of_le (p : List Byte) (lo hi : Nat) (h : lo ≤ hi) (h2 : hi ≤ p.length) :
    sliceOf p lo hi = some ((p.drop lo).take (hi - lo)) := by
  rw [sliceOf, if_pos ⟨h, h2⟩]

theorem parseQueryLoop_total (packet : List Byte) :
    ∀ (fuel i : Nat) (parts : List (List Byte)), packet.length ≤ i + fuel →
      ∃ r, parseQueryLoop packet fuel i parts = some r := by
  intro fuel
  induction fuel with
  | zero =>
    intro i parts h
    exact ⟨(i, parts), by rw [parseQueryLoop, if_neg (by omega)]⟩
  | succ f ih =>
    intro i parts h
    by_cases hi : i < packet.length
    · rw [parseQueryLoop, if_pos hi, byteAt_of_lt packet i hi]
      simp only []
      by_cases hz : (packet[i]).val = 0
      · rw [if_pos hz]; exact ⟨_, rfl⟩
      · rw [if_neg hz]
        by_cases hlen : i + 1 + (packet[i]).val > packet.length
        · rw [if_pos hlen]; exact ⟨_, rfl⟩
        · rw [if_neg hlen, sliceOf_of_le packet _ _ (by omega) (by omega)]
          exact ih _ _ (by omega)
    · rw [parseQueryLoop, if_neg hi]
      exact ⟨_, rfl⟩

theorem parseQuery_total (packet : List Byte) : ∃ r, parseQuery packet = some r := by
  obtain ⟨⟨i, parts⟩, hloop⟩ := parseQueryLoop_total packet packet.length 12 [] (by omega)
  rw [parseQuery, hloop]
  simp only []
  by_cases h : i + 2 ≤ packet.length
  · obtain ⟨s, hs, hs2⟩ := sliceOf_two packet i h
    rw [if_pos h, hs]
    simp only [hs2]
    exact ⟨_, rfl⟩
  · rw [if_neg h]
    exact ⟨_, rfl⟩

/-! ## parseTTL: the claims -/

theorem be16At_append_left (a b : List Byte) (i : Nat) (h : i + 1 < a.length) :
    be16At (a ++ b) i = be16At a i := by
  unfold be16At
  rw [List.getD_append _ _ _ _ (by omega : i < a.length), List.getD_append _ _ _ _ h]

/-- C2, the code at an input that contradicts the claim. In `exampleReply`, a reply in
standard framing to the query `example.com IN A`, the first answer is a compression
pointer, type, class and then the TTL field, which holds 300. `parseTTL` does not skip
the owner name: it reads the four bytes that hold the class and the upper half of the
TTL and returns 65536 seconds, not 300 seconds. -/
theorem parseTTL_exampleReply :
    exampleReply
        = replyHeader ++ encodeQuestion exampleQuestion
            ++ ([0xC0, 0x0C] ++ be16 1 ++ be16 1 ++ be32 300 ++ be16 4 ++ [93, 184, 216, 34])
      ∧ parseTTL exampleReply = some (65536 * second)
      ∧ parseTTL exampleReply ≠ some (300 * second) := by
  decide

/-- C8. `parseTTL` returns zero on a reply of fewer than 12 bytes, on a reply in which
the walk over the questions announced in bytes 4-5 reaches the end of the reply (the
loop is left through `Skip.short`), and on a reply in which fewer than 8 bytes follow
the offset `p` at which the walk over the questions ends. -/
theorem parseTTL_short_reply (resp : List Byte) :
    (resp.length < 12 → parseTTL resp = some 0)
      ∧ (skipQuestions resp (be16At resp 4) 12 = Skip.short → parseTTL resp = some 0)
      ∧ (∀ p, skipQuestions resp (be16At resp 4) 12 = Skip.done p → resp.length < p + 8 →
          parseTTL resp = some 0) := by
  refine ⟨?_, parseTTL_of_short resp, ?_⟩
  · intro h
    rw [parseTTL, if_pos h]
  · intro p hp hlen
    by_cases h12 : resp.length < 12
    · rw [parseTTL, if_pos h12]
    · rw [parseTTL_of_done resp p (by omega) hp, if_pos (by omega)]

/-- Witness of C8: a reply of 3 bytes, a reply cut inside the name of its question, and
a reply with 7 bytes after its question. -/
theorem parseTTL_short_reply_witness :
    parseTTL [0xAB, 0xCD, 0x81] = some 0
      ∧ parseTTL cutReply = some 0
      ∧ parseTTL (exampleReply.take 36) = some 0 :=
  ⟨(parseTTL_short_reply [0xAB, 0xCD, 0x81]).1 (by decide),
   (parseTTL_short_reply cutReply).2.1 (by decide),
   (parseTTL_short_reply (exampleReply.take 36)).2.2 29 (by decide) (by decide)⟩

/-- C9, counterexample. In `eightByteReply` the only question ends at offset 29, the 8
bytes at offsets 29 to 36 are all present and bytes 33 to 36 hold 300, yet `parseTTL`
returns zero. -/
theorem parseTTL_eight_bytes_counterexample :
    12 ≤ eightByteReply.length
      ∧ be16At eightByteReply 4 = 1
      ∧ skipQuestions eightByteReply 1 12 = Skip.done 29
      ∧ 29 + 8 ≤ eightByteReply.length
      ∧ be32At eightByteReply (29 + 4) = 300
      ∧ parseTTL eightByteReply = some 0
      ∧ parseTTL eightByteReply ≠ some (300 * second) := by
  decide

/-- C9, amended. For a reply made of a 12-byte header whose bytes 4-5 hold the number of
questions, that many questions (each a name of non-empty labels closed by a zero byte,
then 4 bytes of type and class) and more than 10 further bytes, with `p` the offset just
after the last question, `parseTTL` returns the big-endian 32-bit value of bytes `p + 4`
to `p + 7`, in seconds. -/
theorem parseTTL_reads_offset_four (header : List Byte) (qs : List Question)
    (rest : List Byte) (hh : header.length = 12) (hq : be16At header 4 = qs.length)
    (hl : ∀ q ∈ qs, ∀ l ∈ q.labels, 1 ≤ l.length ∧ l.length ≤ 255)
    (hrest : 10 < rest.length) :
    parseTTL (header ++ encodeQuestions qs ++ rest)
      = some ((be32At (header ++ encodeQuestions qs ++ rest)
                (12 + (encodeQuestions qs).length + 4) : Int) * second) := by
  have hwalk := skipQuestions_framed qs header rest hl
  have hq2 : be16At (header ++ (encodeQuestions qs ++ rest)) 4 = qs.length := by
    rw [be16At_append_left _ _ _ (by omega), hq]
  rw [hh] at hwalk
  rw [List.append_assoc,
    parseTTL_of_done _ (12 + (encodeQuestions qs).length) (by simp; omega) (by rw [hq2, hwalk]),
    if_neg (by simp; omega)]

/-- Witness of C9, amended: `exampleReply` has 16 bytes after its question, and bytes 33
to 36 hold 65536. -/
theorem parseTTL_reads_offset_four_witness :
    parseTTL (replyHeader ++ encodeQuestions [exampleQuestion]
        ++ encodeAnswer 1 1 300 [93, 184, 216, 34]) = some (65536 * second) :=
  (parseTTL_reads_offset_four replyHeader [exampleQuestion]
    (encodeAnswer 1 1 300 [93, 184, 216, 34]) (by decide) (by decide) (by decide)
    (by decide)).trans (by decide)

/-! ## parseQuery on a truncated label -/

/-- C7, the code at an input that contradicts the claim. In `truncatedQuery` the walk
reads the label `www` and then reaches a length byte 7 with only 2 bytes left. The name
returned is `www`, but the type is not zero: the two bytes at the cursor, the length
byte and the byte after it, are read as the type, 7 * 256 + 101 = 1893. -/
theorem parseQuery_truncatedQuery :
    truncatedQuery = queryHeader ++ ([3] ++ ascii "www") ++ [7, 101, 120]
      ∧ parseQuery truncatedQuery = some (ascii "www", 1893)
      ∧ parseQuery truncatedQuery ≠ some (ascii "www", 0) := by
  decide

/-! ## The cache key -/

theorem decimalAux_digit (fuel : Nat) :
    ∀ (n : Nat), ∀ d ∈ decimalAux fuel n, d ≠ (58 : Byte) := by
  induction fuel with
  | zero => intro n d hd; simp [decimalAux] at hd
  | succ f ih =>
    intro n d hd
    rw [decimalAux] at hd
    by_cases h : n < 10
    · rw [if_pos h] at hd
      simp only [List.mem_singleton] at hd
      subst hd
      intro hc
      have := congrArg Fin.val hc
      rw [ofNat_val_of_lt (by omega)] at this
      simp at this
      omega
    · rw [if_neg h, List.mem_append] at hd
      rcases hd with hd | hd
      · exact ih _ d hd
      · simp only [List.mem_singleton] at hd
        subst hd
        intro hc
        have := congrArg Fin.val hc
        rw [ofNat_val_of_lt (by omega)] at this
        simp at this
        omega

theorem decimalValue_append (ds : List Byte) (d : Byte) :
    decimalValue (ds ++ [d]) = decimalValue ds * 10 + (d.val - 48) := by
  simp [decimalValue, List.foldl_append]

theorem decimalValue_decimalAux (fuel : Nat) :
    ∀ (n : Nat), n < fuel → decimalValue (decimalAux fuel n) = n := by
  induction fuel with
  | zero => intro n h; omega
  | succ f ih =>
    intro n hn
    rw [decimalAux]
    by_cases h : n < 10
    · rw [if_pos h]
      simp only [decimalValue, List.foldl_cons, List.foldl_nil]
      rw [ofNat_val_of_lt (by omega)]
      omega
    · rw [if_neg h, decimalValue_append, ih _ (by omega), ofNat_val_of_lt (by omega)]
      omega

theorem decimal_injective {a b : Nat} (h : decimal a = decimal b) : a = b := by
  have ha := decimalValue_decimalAux (a + 1) a (by omega)
  have hb := decimalValue_decimalAux (b + 1) b (by omega)
  unfold decimal at h
  rw [h] at ha
  omega

theorem append_sep_inj (sep : Byte) :
    ∀ (n1 n2 d1 d2 : List Byte), sep ∉ d1 → sep ∉ d2 →
      n1 ++ sep :: d1 = n2 ++ sep :: d2 → n1 = n2 ∧ d1 = d2 := by
  intro n1
  induction n1 with
  | nil =>
    intro n2 d1 d2 h1 _ h
    cases n2 with
    | nil => simp at h; exact ⟨rfl, h⟩
    | cons x xs =>
      simp at h
      exact absurd (h.2 ▸ (by simp : sep ∈ xs ++ sep :: d2)) h1
  | cons y ys ih =>
    intro n2 d1 d2 h1 h2 h
    cases n2 with
    | nil =>
      simp at h
      exact absurd (h.2 ▸ (by simp : sep ∈ ys ++ sep :: d1)) h2
    | cons x xs =>
      simp at h
      obtain ⟨hr1, hr2⟩ := ih xs d1 d2 h1 h2 h.2
      exact ⟨by rw [h.1, hr1], hr2⟩

/-- C10. The key that `handleRequest` builds, the name, a colon and the type in decimal,
determines the name and the type: two pairs with the same key are equal, whatever bytes
the names hold. -/
theorem sprintfKey_injective (n1 n2 : List Byte) (t1 t2 : Nat)
    (h : sprintfKey n1 t1 = sprintfKey n2 t2) : n1 = n2 ∧ t1 = t2 := by
  unfold sprintfKey at h
  simp only [List.append_assoc, List.singleton_append] at h
  obtain ⟨hn, hd⟩ := append_sep_inj 58 n1 n2 (decimal t1) (decimal t2)
    (fun hm => decimalAux_digit _ _ _ hm rfl) (fun hm => decimalAux_digit _ _ _ hm rfl) h
  exact ⟨hn, decimal_injective hd⟩

/-- Witness of C10: the name `example.com` with type 1 has the key `example.com:1`, and
a name that itself ends in a colon and a digit does not collide with it. -/
theorem sprintfKey_injective_witness :
    sprintfKey (ascii "example.com") 1 = ascii "example.com:1"
      ∧ sprintfKey (ascii "a:1") 2 ≠ sprintfKey (ascii "a") 12
      ∧ (ascii "example.com" = ascii "example.com" ∧ 1 = 1) :=
  ⟨by decide, by decide,
    sprintfKey_injective (ascii "example.com") (ascii "example.com") 1 1 (by decide)⟩

/-! ## handleRequest -/

theorem copyBytes_fresh (m : List Byte) : copyBytes (List.replicate m.length 0) m = m := by
  simp [copyBytes]

theorem hitResponse_eq (msg query : List Byte) :
    hitResponse msg query
      = some (if 2 ≤ msg.length ∧ 2 ≤ query.length then query.take 2 ++ msg.drop 2 else msg) := by
  unfold hitResponse
  rw [copyBytes_fresh]
  by_cases h : 2 ≤ msg.length ∧ 2 ≤ query.length
  · have h' : msg.length ≥ 2 ∧ query.length ≥ 2 := h
    simp only [if_pos h, if_pos h']
    rw [sliceOf_of_le msg 0 2 (by omega) h.1, sliceOf_of_le query 0 2 (by omega) h.2]
    simp only [copyBytes, List.drop_zero, Nat.sub_zero]
    congr 2
    have h1 : (List.take 2 msg).length = 2 := by simp; omega
    have h2 : (List.take 2 query).length = 2 := by simp; omega
    rw [h1, h2, List.take_take]
    simp [List.drop_eq_nil_iff]
  · have h' : ¬ (msg.length ≥ 2 ∧ query.length ≥ 2) := h
    simp only [if_neg h, if_neg h']

theorem since_lt_iff (t0 t1 d : Int) (h01 : t0 ≤ t1) (hd : d ≤ 9223372036854775807) :
    since t1 t0 < d ↔ t1 - t0 < d := by
  unfold since clampInt64
  omega

theorem forwardMiss_failure (c : Cache) (key query : List Byte) (tInsert : Int)
    (net : Upstream)
    (h : net = Upstream.dialError ∨ net = Upstream.writeError ∨ net = Upstream.readError) :
    forwardMiss c key query tInsert net = some { cache := c, sent := [], forwarded := true } := by
  rcases h with h | h | h <;> subst h <;> rfl

theorem forwardMiss_reply (c : Cache) (key query : List Byte) (tInsert : Int)
    (net : Upstream) (resp : List Byte) (ttl : Int)
    (h : resolveUpstream query net = some (some resp, ttl)) :
    forwardMiss c key query tInsert net
      = some { cache := c.store key { msg := resp, timestamp := tInsert, ttl := ttl },
               sent := [resp], forwarded := true } := by
  unfold forwardMiss
  rw [h]
  simp only [copyBytes_fresh]

theorem forwardMiss_forwarded (c : Cache) (key query : List Byte) (tInsert : Int)
    (net : Upstream) :
    ∃ eff, forwardMiss c key query tInsert net = some eff ∧ eff.forwarded = true := by
  cases net with
  | dialError => exact ⟨_, rfl, rfl⟩
  | writeError => exact ⟨_, rfl, rfl⟩
  | readError => exact ⟨_, rfl, rfl⟩
  | reply datagram =>
    obtain ⟨ttl, httl⟩ := parseTTL_total (datagram.take 512)
    have hres : resolveUpstream query (Upstream.reply datagram)
        = some (some (datagram.take 512), ttl) := by
      simp only [resolveUpstream, httl]
    exact ⟨_, forwardMiss_reply c key query tInsert _ _ _ hres, rfl⟩

theorem handleRequest_hit (c : Cache) (query qname : List Byte) (qtype : Nat)
    (e : cacheEntry) (tLookup tInsert : Int) (net : Upstream)
    (hk : parseQuery query = some (qname, qtype))
    (he : c (sprintfKey qname qtype) = some e) (hfresh : since tLookup e.timestamp < e.ttl) :
    handleRequest c query tLookup tInsert net
      = some { cache := c,
               sent := [if 2 ≤ e.msg.length ∧ 2 ≤ query.length
                        then query.take 2 ++ e.msg.drop 2 else e.msg],
               forwarded := false } := by
  unfold handleRequest
  rw [hk]
  simp only [he, if_pos hfresh, hitResponse_eq]

theorem handleRequest_expired (c : Cache) (query qname : List Byte) (qtype : Nat)
    (e : cacheEntry) (tLookup tInsert : Int) (net : Upstream)
    (hk : parseQuery query = some (qname, qtype))
    (he : c (sprintfKey qname qtype) = some e) (hold : e.ttl ≤ since tLookup e.timestamp) :
    handleRequest c query tLookup tInsert net
      = forwardMiss (c.delete (sprintfKey qname qtype)) (sprintfKey qname qtype) query
          tInsert net := by
  unfold handleRequest
  rw [hk]
  simp only [he, if_neg (not_lt.mpr hold)]

theorem handleRequest_absent (c : Cache) (query qname : List Byte) (qtype : Nat)
    (tLookup tInsert : Int) (net : Upstream)
    (hk : parseQuery query = some (qname, qtype))
    (he : c (sprintfKey qname qtype) = none) :
    handleRequest c query tLookup tInsert net
      = forwardMiss c (sprintfKey qname qtype) query tInsert net := by
  unfold handleRequest
  rw [hk]
  simp only [he]

theorem Cache.delete_self (c : Cache) (key : List Byte) : c.delete key key = none := by
  simp [Cache.delete]

theorem Cache.store_self (c : Cache) (key : List Byte) (e : cacheEntry) :
    c.store key e key = some e := by
  simp [Cache.store]

/-- C3, counterexample. The guard of the rewrite needs two bytes on both sides.
With `oneByteCache` the query `exampleQuery` hits an unexpired entry whose stored reply
is the single byte `0x11`: the datagram sent is that byte, and its first two bytes are
not the `0xAB 0xCD` of the query. With `emptyNameCache` the one-byte query `0xAB` hits an
unexpired entry under `:0`: the datagram sent is the stored reply unchanged. -/
theorem hit_transaction_id_counterexample :
    (parseQuery exampleQuery = some (ascii "example.com", 1)
      ∧ oneByteCache (sprintfKey (ascii "example.com") 1)
          = some { msg := [0x11], timestamp := 0, ttl := 300 * second }
      ∧ since second 0 < 300 * second
      ∧ (handleRequest oneByteCache exampleQuery second second Upstream.dialError).map
          (fun eff => eff.sent) = some [[0x11]]
      ∧ List.take 2 ([0x11] : List Byte) ≠ List.take 2 exampleQuery)
    ∧ (parseQuery [0xAB] = some ([], 0)
      ∧ emptyNameCache (sprintfKey [] 0)
          = some { msg := exampleReply, timestamp := 0, ttl := 300 * second }
      ∧ since second 0 < 300 * second
      ∧ (handleRequest emptyNameCache [0xAB] second second Upstream.dialError).map
          (fun eff => eff.sent) = some [exampleReply]
      ∧ List.take 2 exampleReply ≠ List.take 2 ([0xAB] : List Byte)) := by
  decide

/-- C3, amended. When the query has at least 2 bytes and its key holds an unexpired
entry whose stored reply has at least 2 bytes, `handleRequest` sends one datagram and
its first two bytes are the first two bytes of the query. -/
theorem hit_transaction_id (c : Cache) (query qname : List Byte) (qtype : Nat)
    (e : cacheEntry) (tLookup tInsert : Int) (net : Upstream)
    (hk : parseQuery query = some (qname, qtype))
    (he : c (sprintfKey qname qtype) = some e) (hfresh : since tLookup e.timestamp < e.ttl)
    (hq : 2 ≤ query.length) (hm : 2 ≤ e.msg.length) :
    ∃ eff resp, handleRequest c query tLookup tInsert net = some eff
      ∧ eff.sent = [resp] ∧ resp.take 2 = query.take 2 := by
  refine ⟨_, _, handleRequest_hit c query qname qtype e tLookup tInsert net hk he hfresh,
    rfl, ?_⟩
  rw [if_pos ⟨hm, hq⟩, List.take_append_of_le_length (by simp; omega), List.take_take]
  simp

/-- Witness of C3, amended: `exampleQuery`, with id `0xABCD`, served 1 second after the
insertion from `exampleCache`, whose stored reply has the id `0x1234`. -/
theorem hit_transaction_id_witness :
    ∃ eff resp, handleRequest exampleCache exampleQuery second second Upstream.dialError
        = some eff
      ∧ eff.sent = [resp] ∧ resp.take 2 = exampleQuery.take 2 :=
  hit_transaction_id exampleCache exampleQuery (ascii "example.com") 1
    { msg := [0x12, 0x34] ++ exampleReply.drop 2, timestamp := 0, ttl := 300 * second }
    second second Upstream.dialError (by decide) (by decide) (by decide) (by decide)
    (by decide)

/-- C4. Let the cache hold the entry `(msg, t0, d)` under the key of a query handled at
time `t1 ≥ t0`. If `t1 - t0 < d` the query is served from the cache: one datagram, the
stored message with the id of the query, no call of `resolveUpstream`, the cache as it
was. If `t1 - t0 ≥ d`, equality included, `handleRequest` does what the miss path does
on the cache from which the entry has been deleted, and `resolveUpstream` is called. -/
theorem cache_expiry_boundary (c : Cache) (query qname : List Byte) (qtype : Nat)
    (msg : List Byte) (t0 d t1 tInsert : Int) (net : Upstream)
    (hk : parseQuery query = some (qname, qtype))
    (he : c (sprintfKey qname qtype) = some { msg := msg, timestamp := t0, ttl := d })
    (h01 : t0 ≤ t1) (hd : d ≤ 9223372036854775807) :
    (t1 - t0 < d →
        handleRequest c query t1 tInsert net
          = some { cache := c,
                   sent := [if 2 ≤ msg.length ∧ 2 ≤ query.length
                            then query.take 2 ++ msg.drop 2 else msg],
                   forwarded := false })
      ∧ (d ≤ t1 - t0 →
          handleRequest c query t1 tInsert net
              = forwardMiss (c.delete (sprintfKey qname qtype)) (sprintfKey qname qtype)
                  query tInsert net
            ∧ (c.delete (sprintfKey qname qtype)) (sprintfKey qname qtype) = none
            ∧ ∃ eff, handleRequest c query t1 tInsert net = some eff
                ∧ eff.forwarded = true) := by
  have hiff := since_lt_iff t0 t1 d h01 hd
  constructor
  · intro hlt
    exact handleRequest_hit c query qname qtype _ t1 tInsert net hk he (hiff.mpr hlt)
  · intro hge
    have hold : d ≤ since t1 t0 := by
      rcases lt_or_le (since t1 t0) d with h | h
      · exact absurd (hiff.mp h) (not_lt.mpr hge)
      · exact h
    have hexp := handleRequest_expired c query qname qtype _ t1 tInsert net hk he hold
    refine ⟨hexp, Cache.delete_self _ _, ?_⟩
    rw [hexp]
    exact forwardMiss_forwarded _ _ _ _ _

/-- Witness of C4: `exampleCache` holds its entry since time 0 for 300 seconds; the query
is served from it after 299 seconds and not after exactly 300 seconds. -/
theorem cache_expiry_boundary_witness :
    handleRequest exampleCache exampleQuery (299 * second) (299 * second) Upstream.readError
        = some { cache := exampleCache,
                 sent := [[0xAB, 0xCD] ++ exampleReply.drop 2],
                 forwarded := false }
      ∧ ∃ eff, handleRequest exampleCache exampleQuery (300 * second) (300 * second)
            Upstream.readError = some eff
          ∧ eff.forwarded = true :=
  ⟨((cache_expiry_boundary exampleCache exampleQuery (ascii "example.com") 1
      ([0x12, 0x34] ++ exampleReply.drop 2) 0 (300 * second) (299 * second) (299 * second)
      Upstream.readError (by decide) (by decide) (by decide) (by decide)).1
        (by decide)).trans (by rfl),
   ((cache_expiry_boundary exampleCache exampleQuery (ascii "example.com") 1
      ([0x12, 0x34] ++ exampleReply.drop 2) 0 (300 * second) (300 * second) (300 * second)
      Upstream.readError (by decide) (by decide) (by decide) (by decide)).2
        (by decide)).2.2⟩

/-- C5. When the key of the query is absent or expired and the upstream exchange fails
(in `net.Dial`, `conn.Write` or `conn.Read`), `resolveUpstream` returns `nil` and 0 and
`handleRequest` sends nothing and leaves no entry under the key. -/
theorem upstream_failure_drops (c : Cache) (query qname : List Byte) (qtype : Nat)
    (tLookup tInsert : Int) (net : Upstream)
    (hk : parseQuery query = some (qname, qtype))
    (hmiss : c (sprintfKey qname qtype) = none
      ∨ ∃ e, c (sprintfKey qname qtype) = some e ∧ e.ttl ≤ since tLookup e.timestamp)
    (hfail : net = Upstream.dialError ∨ net = Upstream.writeError
      ∨ net = Upstream.readError) :
    resolveUpstream query net = some (none, 0)
      ∧ ∃ eff, handleRequest c query tLookup tInsert net = some eff
          ∧ eff.sent = [] ∧ eff.cache (sprintfKey qname qtype) = none := by
  constructor
  · rcases hfail with h | h | h <;> subst h <;> rfl
  · rcases hmiss with habs | ⟨e, he, hold⟩
    · rw [handleRequest_absent c query qname qtype tLookup tInsert net hk habs,
        forwardMiss_failure _ _ _ _ _ hfail]
      exact ⟨_, rfl, rfl, habs⟩
    · rw [handleRequest_expired c query qname qtype e tLookup tInsert net hk he hold,
        forwardMiss_failure _ _ _ _ _ hfail]
      exact ⟨_, rfl, rfl, Cache.delete_self _ _⟩

/-- Witness of C5: the expired entry of `exampleCache`, 301 seconds after its insertion,
with a failing `net.Dial`. -/
theorem upstream_failure_drops_witness :
    resolveUpstream exampleQuery Upstream.dialError = some (none, 0)
      ∧ ∃ eff, handleRequest exampleCache exampleQuery (301 * second) (301 * second)
            Upstream.dialError = some eff
          ∧ eff.sent = [] ∧ eff.cache (sprintfKey (ascii "example.com") 1) = none :=
  upstream_failure_drops exampleCache exampleQuery (ascii "example.com") 1 (301 * second)
    (301 * second) Upstream.dialError (by decide)
    (Or.inr ⟨{ msg := [0x12, 0x34] ++ exampleReply.drop 2, timestamp := 0,
               ttl := 300 * second }, by decide, by decide⟩)
    (Or.inl rfl)

theorem resolveUpstream_reply (query : List Byte) (net : Upstream) (resp : List Byte)
    (ttl : Int) (h : resolveUpstream query net = some (some resp, ttl)) :
    parseTTL resp = some ttl := by
  cases net with
  | dialError => simp [resolveUpstream] at h
  | writeError => simp [resolveUpstream] at h
  | readError => simp [resolveUpstream] at h
  | reply datagram =>
    unfold resolveUpstream at h
    cases hp : parseTTL (List.take 512 datagram) with
    | none => simp [hp] at h
    | some d =>
      simp only [hp, Option.some.injEq, Prod.mk.injEq] at h
      rw [← h.1, ← h.2]
      exact hp

/-- C6. When the key of the query is absent or expired and `resolveUpstream` returns the
reply `resp` with the lifetime `ttl`, which is `parseTTL resp`, then afterwards the
entry under the key is `(resp, tInsert, ttl)`, with `tInsert` the clock at the insertion,
and the one datagram sent to the client is `resp`, unchanged. -/
theorem miss_populates_and_forwards (c : Cache) (query qname : List Byte) (qtype : Nat)
    (tLookup tInsert : Int) (net : Upstream) (resp : List Byte) (ttl : Int)
    (hk : parseQuery query = some (qname, qtype))
    (hmiss : c (sprintfKey qname qtype) = none
      ∨ ∃ e, c (sprintfKey qname qtype) = some e ∧ e.ttl ≤ since tLookup e.timestamp)
    (hup : resolveUpstream query net = some (some resp, ttl)) :
    parseTTL resp = some ttl
      ∧ ∃ eff, handleRequest c query tLookup tInsert net = some eff
          ∧ eff.cache (sprintfKey qname qtype)
              = some { msg := resp, timestamp := tInsert, ttl := ttl }
          ∧ eff.sent = [resp] := by
  refine ⟨resolveUpstream_reply query net resp ttl hup, ?_⟩
  rcases hmiss with habs | ⟨e, he, hold⟩
  · rw [handleRequest_absent c query qname qtype tLookup tInsert net hk habs,
      forwardMiss_reply _ _ _ _ _ _ _ hup]
    exact ⟨_, rfl, Cache.store_self _ _ _, rfl⟩
  · rw [handleRequest_expired c query qname qtype e tLookup tInsert net hk he hold,
      forwardMiss_reply _ _ _ _ _ _ _ hup]
    exact ⟨_, rfl, Cache.store_self _ _ _, rfl⟩

/-- Witness of C6: the expired entry of `exampleCache`, 301 seconds after its insertion,
is replaced by the upstream reply `exampleReply`, which is sent as it is. -/
theorem miss_populates_and_forwards_witness :
    parseTTL exampleReply = some (65536 * second)
      ∧ ∃ eff, handleRequest exampleCache exampleQuery (301 * second) (302 * second)
            (Upstream.reply exampleReply) = some eff
          ∧ eff.cache (sprintfKey (ascii "example.com") 1)
              = some { msg := exampleReply, timestamp := 302 * second,
                       ttl := 65536 * second }
          ∧ eff.sent = [exampleReply] :=
  miss_populates_and_forwards exampleCache exampleQuery (ascii "example.com") 1
    (301 * second) (302 * second) (Upstream.reply exampleReply) exampleReply
    (65536 * second) (by decide)
    (Or.inr ⟨{ msg := [0x12, 0x34] ++ exampleReply.drop 2, timestamp := 0,
               ttl := 300 * second }, by decide, by decide⟩)
    (by decide)

/-! ## The parsers on arbitrary input -/

/-- C11. On every byte sequence `parseQuery` and `parseTTL` return a value: with the
budget of `len` iterations their loops end, and no index or slice expression is out of
range. -/
theorem parsers_total (input : List Byte) :
    (∃ r, parseQueryLoop input input.length 12 [] = some r)
      ∧ (∃ r, parseQuery input = some r)
      ∧ (∀ n i, skipQuestions input n i ≠ Skip.panic)
      ∧ (∃ d, parseTTL input = some d) :=
  ⟨parseQueryLoop_total input input.length 12 [] (by omega), parseQuery_total input,
    skipQuestions_ne_panic input, parseTTL_total input⟩

/-- C17. Let the loop over the announced questions of a reply of at least 12 bytes end
with the cursor at `p`. Then `parseTTL` returns the big-endian value of bytes `p + 4` to
`p + 7`, in seconds, when `len > p + 10`, and zero when `len ≤ p + 10`. For a reply made
of a header, its questions and `rest`, the cursor is just after the questions, so that
the result is zero when `rest` has 8, 9 or 10 bytes. -/
theorem parseTTL_threshold (resp : List Byte) (p : Nat) (h12 : 12 ≤ resp.length)
    (hp : skipQuestions resp (be16At resp 4) 12 = Skip.done p) :
    (p + 10 < resp.length → parseTTL resp = some ((be32At resp (p + 4) : Int) * second))
      ∧ (resp.length ≤ p + 10 → parseTTL resp = some 0)
      ∧ ∀ (header : List Byte) (qs : List Question) (rest : List Byte),
          header.length = 12 → be16At header 4 = qs.length →
          (∀ q ∈ qs, ∀ l ∈ q.labels, 1 ≤ l.length ∧ l.length ≤ 255) →
          resp = header ++ encodeQuestions qs ++ rest →
          p = 12 + (encodeQuestions qs).length
            ∧ (8 ≤ rest.length → rest.length ≤ 10 → parseTTL resp = some 0) := by
  have hdone := parseTTL_of_done resp p h12 hp
  refine ⟨?_, ?_, ?_⟩
  · intro h
    rw [hdone, if_neg (by omega)]
  · intro h
    rw [hdone, if_pos (by omega)]
  · intro header qs rest hh hq hl hresp
    have hwalk := skipQuestions_framed qs header rest hl
    have hq2 : be16At resp 4 = qs.length := by
      rw [hresp, List.append_assoc, be16At_append_left _ _ _ (by omega), hq]
    rw [hresp, List.append_assoc] at hp
    rw [hresp, List.append_assoc] at hq2
    rw [hh] at hwalk
    rw [hq2, hwalk] at hp
    have hpe : p = 12 + (encodeQuestions qs).length := by
      injection hp with hp
      exact hp.symm
    refine ⟨hpe, ?_⟩
    intro _ h10
    rw [hdone, if_pos (by rw [hresp]; simp; omega)]

/-- Witness of C17: `exampleReply` has 16 bytes after its question, which ends at 29, and
`eightByteReply` has 8. -/
theorem parseTTL_threshold_witness :
    parseTTL exampleReply = some (65536 * second)
      ∧ parseTTL eightByteReply = some 0 :=
  ⟨((parseTTL_threshold exampleReply 29 (by decide) (by decide)).1 (by decide)).trans
      (by decide),
   (parseTTL_threshold eightByteReply 29 (by decide) (by decide)).2.1 (by decide)⟩

/-- C18. The result of `parseTTL` is `n` seconds for a number `n` of at most `2^32 - 1`;
for every such number the product with `time.Second` lies between 0 and `2^63 - 1`, so
that the 64-bit multiplication does not wrap. -/
theorem parseTTL_no_overflow (resp : List Byte) :
    (∃ n : Nat, n ≤ 4294967295 ∧ parseTTL resp = some ((n : Int) * second))
      ∧ ∀ n : Fin 4294967296,
          wrapInt64 ((n.val : Int) * second) = (n.val : Int) * second
            ∧ 0 ≤ (n.val : Int) * second
            ∧ (n.val : Int) * second ≤ 9223372036854775807 := by
  constructor
  · by_cases h12 : resp.length < 12
    · exact ⟨0, by omega, by rw [parseTTL, if_pos h12]; simp⟩
    · cases hq : skipQuestions resp (be16At resp 4) 12 with
      | panic => exact absurd hq (skipQuestions_ne_panic _ _ _)
      | short => exact ⟨0, by omega, by rw [parseTTL_of_short resp hq]; simp⟩
      | done p =>
        by_cases hlen : p + 10 ≥ resp.length
        · exact ⟨0, by omega, by rw [parseTTL_of_done resp p (by omega) hq, if_pos hlen]; simp⟩
        · have hlt := be32At_lt resp (p + 4)
          exact ⟨be32At resp (p + 4), by omega,
            by rw [parseTTL_of_done resp p (by omega) hq, if_neg hlen]⟩
  · intro n
    have hn := n.isLt
    refine ⟨wrapInt64_seconds hn, ?_, ?_⟩ <;> unfold second <;> omega

/-! ## parseQuery reads nothing before offset 12 -/

theorem drop_eq_of_agree (p1 p2 : List Byte) (k : Nat)
    (h : ∀ i, k ≤ i → p1[i]? = p2[i]?) : p1.drop k = p2.drop k := by
  apply List.ext_getElem?
  intro n
  rw [List.getElem?_drop, List.getElem?_drop]
  exact h _ (by omega)

theorem sliceOf_of_agree (p1 p2 : List Byte) (hlen : p1.length = p2.length)
    (h : ∀ i, 12 ≤ i → p1[i]? = p2[i]?) (lo hi : Nat) (hlo : 12 ≤ lo) :
    sliceOf p1 lo hi = sliceOf p2 lo hi := by
  have hdrop : p1.drop lo = p2.drop lo :=
    drop_eq_of_agree p1 p2 lo (fun i hi => h i (by omega))
  unfold sliceOf
  rw [hlen, hdrop]

theorem parseQueryLoop_of_agree (p1 p2 : List Byte) (hlen : p1.length = p2.length)
    (h : ∀ i, 12 ≤ i → p1[i]? = p2[i]?) :
    ∀ (fuel i : Nat) (parts : List (List Byte)), 12 ≤ i →
      parseQueryLoop p1 fuel i parts = parseQueryLoop p2 fuel i parts := by
  intro fuel
  induction fuel with
  | zero =>
    intro i parts _
    rw [parseQueryLoop, parseQueryLoop, hlen]
  | succ f ih =>
    intro i parts hi
    have hb : byteAt p1 i = byteAt p2 i := h i hi
    rw [parseQueryLoop, parseQueryLoop, hlen, hb]
    by_cases hin : i < p2.length
    · rw [if_pos hin, if_pos hin]
      cases byteAt p2 i with
      | none => rfl
      | some b =>
        simp only []
        by_cases hz : b.val = 0
        · rw [if_pos hz, if_pos hz]
        · rw [if_neg hz, if_neg hz]
          by_cases hover : i + 1 + b.val > p2.length
          · rw [if_pos hover, if_pos hover]
          · rw [if_neg hover, if_neg hover,
              sliceOf_of_agree p1 p2 hlen h (i + 1) (i + 1 + b.val) (by omega)]
            cases sliceOf p2 (i + 1) (i + 1 + b.val) with
            | none => rfl
            | some label => exact ih _ _ (by omega)
    · rw [if_neg hin, if_neg hin]

theorem parseQueryLoop_cursor_ge (packet : List Byte) :
    ∀ (fuel i : Nat) (parts : List (List Byte)) (j : Nat) (ps : List (List Byte)),
      parseQueryLoop packet fuel i parts = some (j, ps) → i ≤ j := by
  intro fuel
  induction fuel with
  | zero =>
    intro i parts j ps hres
    rw [parseQueryLoop] at hres
    by_cases hin : i < packet.length
    · rw [if_pos hin] at hres
      exact absurd hres (by simp)
    · rw [if_neg hin] at hres
      simp only [Option.some.injEq, Prod.mk.injEq] at hres
      omega
  | succ f ih =>
    intro i parts j ps hres
    rw [parseQueryLoop] at hres
    by_cases hin : i < packet.length
    · rw [if_pos hin] at hres
      cases hb : byteAt packet i with
      | none => rw [hb] at hres; exact absurd hres (by simp)
      | some b =>
        rw [hb] at hres
        simp only [] at hres
        by_cases hz : b.val = 0
        · rw [if_pos hz] at hres
          simp only [Option.some.injEq, Prod.mk.injEq] at hres
          omega
        · rw [if_neg hz] at hres
          by_cases hover : i + 1 + b.val > packet.length
          · rw [if_pos hover] at hres
            simp only [Option.some.injEq, Prod.mk.injEq] at hres
            omega
          · rw [if_neg hover] at hres
            cases hs : sliceOf packet (i + 1) (i + 1 + b.val) with
            | none => rw [hs] at hres; exact absurd hres (by simp)
            | some label =>
              rw [hs] at hres
              have := ih _ _ _ _ hres
              omega
    · rw [if_neg hin] at hres
      simp only [Option.some.injEq, Prod.mk.injEq] at hres
      omega

/-- C19. Two packets of the same length that agree on every byte from offset 12 on give
the same result of `parseQuery`, hence the same cache key, whatever their first 12 bytes
are; and on a packet of 12 bytes or fewer `parseQuery` returns the empty name and type
zero. -/
theorem parseQuery_ignores_header (p1 p2 : List Byte) (hlen : p1.length = p2.length)
    (h : ∀ i, 12 ≤ i → p1[i]? = p2[i]?) :
    parseQuery p1 = parseQuery p2
      ∧ (parseQuery p1).map (fun r => sprintfKey r.1 r.2)
          = (parseQuery p2).map (fun r => sprintfKey r.1 r.2)
      ∧ (p1.length ≤ 12 → parseQuery p1 = some ([], 0)) := by
  have hq : parseQuery p1 = parseQuery p2 := by
    unfold parseQuery
    rw [parseQueryLoop_of_agree p1 p2 hlen h p1.length 12 [] (Nat.le_refl _), hlen]
    cases hloop : parseQueryLoop p2 p2.length 12 [] with
    | none => rfl
    | some r =>
      obtain ⟨i, parts⟩ := r
      have hge := parseQueryLoop_cursor_ge p2 p2.length 12 [] i parts hloop
      simp only []
      rw [sliceOf_of_agree p1 p2 hlen h i (i + 2) hge]
  refine ⟨hq, by rw [hq], ?_⟩
  intro hshort
  unfold parseQuery
  cases hf : p1.length with
  | zero =>
    rw [parseQueryLoop, if_neg (by omega)]
    simp only []
    rw [if_neg (by omega)]
    rfl
  | succ f =>
    rw [parseQueryLoop, if_neg (by omega)]
    simp only []
    rw [if_neg (by omega)]
    rfl

/-- Witness of C19: `exampleQuery` and the same question under the header of a reply, and
a packet of one byte. -/
theorem parseQuery_ignores_header_witness :
    parseQuery exampleQuery = parseQuery (replyHeader ++ encodeQuestion exampleQuestion)
      ∧ parseQuery [0xAB] = some ([], 0) :=
  ⟨(parseQuery_ignores_header exampleQuery (replyHeader ++ encodeQuestion exampleQuestion)
      (by decide)
      (fun i hi => by
        rw [exampleQuery, List.getElem?_append_right (by simpa [queryHeader] using hi),
          List.getElem?_append_right (by simpa [replyHeader] using hi)]
        rfl)).1,
   (parseQuery_ignores_header [0xAB] [0xAB] rfl (fun _ _ => rfl)).2.2 (by decide)⟩

/-! ## handleRequest: what it leaves alone -/

theorem Cache.store_ne (c : Cache) (key k : List Byte) (e : cacheEntry) (h : k ≠ key) :
    c.store key e k = c k := by
  simp [Cache.store, h]

theorem Cache.delete_ne (c : Cache) (key k : List Byte) (h : k ≠ key) :
    c.delete key k = c k := by
  simp [Cache.delete, h]

theorem forwardMiss_cases (c : Cache) (key query : List Byte) (tInsert : Int)
    (net : Upstream) :
    forwardMiss c key query tInsert net = some { cache := c, sent := [], forwarded := true }
      ∨ ∃ resp ttl, resolveUpstream query net = some (some resp, ttl)
          ∧ forwardMiss c key query tInsert net
              = some { cache := c.store key { msg := resp, timestamp := tInsert, ttl := ttl },
                       sent := [resp], forwarded := true } := by
  cases net with
  | dialError => exact Or.inl rfl
  | writeError => exact Or.inl rfl
  | readError => exact Or.inl rfl
  | reply datagram =>
    obtain ⟨ttl, httl⟩ := parseTTL_total (datagram.take 512)
    have hres : resolveUpstream query (Upstream.reply datagram)
        = some (some (datagram.take 512), ttl) := by
      simp only [resolveUpstream, httl]
    exact Or.inr ⟨_, _, hres, forwardMiss_reply c key query tInsert _ _ _ hres⟩

theorem forwardMiss_other_keys (c : Cache) (key query : List Byte) (tInsert : Int)
    (net : Upstream) :
    ∃ eff, forwardMiss c key query tInsert net = some eff
      ∧ ∀ k, k ≠ key → eff.cache k = c k := by
  rcases forwardMiss_cases c key query tInsert net with h | ⟨resp, ttl, _, h⟩
  · exact ⟨_, h, fun _ _ => rfl⟩
  · exact ⟨_, h, fun k hk => Cache.store_ne _ _ _ _ hk⟩

/-- C12. One call of `handleRequest` leaves the entry of every key other than the key of
the query as it was, leaves an unexpired entry under that key as it was, and changes
what is under that key only if there was no entry or the entry was expired. -/
theorem lazy_invalidation_only (c : Cache) (query qname : List Byte) (qtype : Nat)
    (tLookup tInsert : Int) (net : Upstream)
    (hk : parseQuery query = some (qname, qtype)) :
    ∃ eff, handleRequest c query tLookup tInsert net = some eff
      ∧ (∀ k, k ≠ sprintfKey qname qtype → eff.cache k = c k)
      ∧ (∀ e, c (sprintfKey qname qtype) = some e → since tLookup e.timestamp < e.ttl →
          eff.cache (sprintfKey qname qtype) = some e)
      ∧ (eff.cache (sprintfKey qname qtype) ≠ c (sprintfKey qname qtype) →
          c (sprintfKey qname qtype) = none
            ∨ ∃ e, c (sprintfKey qname qtype) = some e
                ∧ e.ttl ≤ since tLookup e.timestamp) := by
  cases hc : c (sprintfKey qname qtype) with
  | none =>
    obtain ⟨eff, heff, hother⟩ :=
      forwardMiss_other_keys c (sprintfKey qname qtype) query tInsert net
    rw [handleRequest_absent c query qname qtype tLookup tInsert net hk hc]
    exact ⟨eff, heff, hother, fun e he => absurd he (by simp), fun _ => Or.inl rfl⟩
  | some e =>
    by_cases hfresh : since tLookup e.timestamp < e.ttl
    · rw [handleRequest_hit c query qname qtype e tLookup tInsert net hk hc hfresh]
      refine ⟨_, rfl, fun _ _ => rfl, ?_, ?_⟩
      · intro e2 he2 _
        show c (sprintfKey qname qtype) = some e2
        rw [hc]
        exact he2
      · intro hne
        exact absurd hc hne
    · have hold : e.ttl ≤ since tLookup e.timestamp := not_lt.mp hfresh
      obtain ⟨eff, heff, hother⟩ :=
        forwardMiss_other_keys (c.delete (sprintfKey qname qtype)) (sprintfKey qname qtype)
          query tInsert net
      rw [handleRequest_expired c query qname qtype e tLookup tInsert net hk hc hold]
      refine ⟨eff, heff, ?_, ?_, ?_⟩
      · intro k hkne
        rw [hother k hkne, Cache.delete_ne _ _ _ hkne]
      · intro e2 he2 hfresh2
        simp only [Option.some.injEq] at he2
        subst he2
        exact absurd hfresh2 hfresh
      · intro _
        exact Or.inr ⟨e, rfl, hold⟩

/-- Witness of C12: `exampleQuery` handled on `exampleCache` after 1 second, with an
upstream reply at hand: the entry stays as it was. -/
theorem lazy_invalidation_only_witness :
    ∃ eff, handleRequest exampleCache exampleQuery second second
          (Upstream.reply exampleReply) = some eff
      ∧ (∀ k, k ≠ sprintfKey (ascii "example.com") 1 → eff.cache k = exampleCache k)
      ∧ eff.cache (sprintfKey (ascii "example.com") 1)
          = some { msg := otherIdReply, timestamp := 0, ttl := 300 * second } :=
  match lazy_invalidation_only exampleCache exampleQuery (ascii "example.com") 1 second
      second (Upstream.reply exampleReply) (by decide) with
  | ⟨eff, heff, hother, hkeep, _⟩ =>
    ⟨eff, heff, hother, hkeep _ (by decide) (by decide)⟩

/-- C13. When the key of the query holds an unexpired entry with the stored message
`msg`, `handleRequest` sends one datagram, of the length of `msg` and equal to `msg` at
every offset from 2 on, does not call `resolveUpstream`, and leaves the cache as it
was. -/
theorem hit_served_from_cache (c : Cache) (query qname : List Byte) (qtype : Nat)
    (e : cacheEntry) (tLookup tInsert : Int) (net : Upstream)
    (hk : parseQuery query = some (qname, qtype))
    (he : c (sprintfKey qname qtype) = some e)
    (hfresh : since tLookup e.timestamp < e.ttl) :
    ∃ resp, handleRequest c query tLookup tInsert net
          = some { cache := c, sent := [resp], forwarded := false }
      ∧ resp.length = e.msg.length
      ∧ (∀ i, 2 ≤ i → resp[i]? = e.msg[i]?)
      ∧ c (sprintfKey qname qtype) = some e := by
  refine ⟨_, handleRequest_hit c query qname qtype e tLookup tInsert net hk he hfresh,
    ?_, ?_, he⟩
  · by_cases h : 2 ≤ e.msg.length ∧ 2 ≤ query.length
    · rw [if_pos h]
      simp
      omega
    · rw [if_neg h]
  · intro i hi
    by_cases h : 2 ≤ e.msg.length ∧ 2 ≤ query.length
    · rw [if_pos h]
      have hlen : (List.take 2 query).length = 2 := by simp; omega
      rw [List.getElem?_append_right (by omega), hlen, List.getElem?_drop]
      congr 1
      omega
    · rw [if_neg h]

/-- Witness of C13: `exampleQuery` served from `exampleCache` after 1 second. -/
theorem hit_served_from_cache_witness :
    ∃ resp, handleRequest exampleCache exampleQuery second second Upstream.dialError
          = some { cache := exampleCache, sent := [resp], forwarded := false }
      ∧ resp.length = otherIdReply.length
      ∧ (∀ i, 2 ≤ i → resp[i]? = otherIdReply[i]?)
      ∧ exampleCache (sprintfKey (ascii "example.com") 1)
          = some { msg := otherIdReply, timestamp := 0, ttl := 300 * second } :=
  hit_served_from_cache exampleCache exampleQuery (ascii "example.com") 1
    { msg := otherIdReply, timestamp := 0, ttl := 300 * second } second second
    Upstream.dialError (by decide) (by decide) (by decide)

/-! ## handleRequest: a lifetime of zero, and what the upstream server returns -/

theorem since_nonneg (t0 t1 : Int) (h : t0 ≤ t1) : 0 ≤ since t1 t0 := by
  unfold since clampInt64
  omega

/-- C14. An entry stored with a lifetime of zero at `t0` is not served at any time
`t1 ≥ t0`: `handleRequest` does what the miss path does on the cache from which the
entry has been deleted, `resolveUpstream` is called, and what is sent is nothing or the
fresh reply. In particular, when a miss stores a reply for which `parseTTL` returned
zero, the same query at any later time is forwarded again. -/
theorem zero_ttl_never_served (c : Cache) (query qname : List Byte) (qtype : Nat)
    (msg : List Byte) (t0 t1 tInsert : Int) (net : Upstream)
    (hk : parseQuery query = some (qname, qtype))
    (he : c (sprintfKey qname qtype) = some { msg := msg, timestamp := t0, ttl := 0 })
    (h01 : t0 ≤ t1) :
    (handleRequest c query t1 tInsert net
        = forwardMiss (c.delete (sprintfKey qname qtype)) (sprintfKey qname qtype) query
            tInsert net
      ∧ (c.delete (sprintfKey qname qtype)) (sprintfKey qname qtype) = none
      ∧ ∃ eff, handleRequest c query t1 tInsert net = some eff ∧ eff.forwarded = true
          ∧ (eff.sent = []
            ∨ ∃ resp ttl, resolveUpstream query net = some (some resp, ttl)
                ∧ eff.sent = [resp]))
    ∧ ∀ (c0 : Cache) (tLookup0 : Int) (net0 : Upstream) (resp0 : List Byte),
        (c0 (sprintfKey qname qtype) = none
          ∨ ∃ e, c0 (sprintfKey qname qtype) = some e
              ∧ e.ttl ≤ since tLookup0 e.timestamp) →
        resolveUpstream query net0 = some (some resp0, 0) →
        ∃ eff0 eff1, handleRequest c0 query tLookup0 t0 net0 = some eff0
          ∧ parseTTL resp0 = some 0
          ∧ handleRequest eff0.cache query t1 tInsert net = some eff1
          ∧ eff1.forwarded = true := by
  have second_call : ∀ (c1 : Cache) (m : List Byte),
      c1 (sprintfKey qname qtype) = some { msg := m, timestamp := t0, ttl := 0 } →
      handleRequest c1 query t1 tInsert net
        = forwardMiss (c1.delete (sprintfKey qname qtype)) (sprintfKey qname qtype) query
            tInsert net := by
    intro c1 m h1
    exact handleRequest_expired c1 query qname qtype _ t1 tInsert net hk h1
      (since_nonneg t0 t1 h01)
  constructor
  · have hexp := second_call c msg he
    refine ⟨hexp, Cache.delete_self _ _, ?_⟩
    rw [hexp]
    rcases forwardMiss_cases (c.delete (sprintfKey qname qtype)) (sprintfKey qname qtype)
      query tInsert net with h | ⟨resp, ttl, hres, h⟩
    · exact ⟨_, h, rfl, Or.inl rfl⟩
    · exact ⟨_, h, rfl, Or.inr ⟨resp, ttl, hres, rfl⟩⟩
  · intro c0 tLookup0 net0 resp0 hmiss hup
    have hfirst : ∃ c0' : Cache, handleRequest c0 query tLookup0 t0 net0
        = some { cache := c0'.store (sprintfKey qname qtype)
                   { msg := resp0, timestamp := t0, ttl := 0 },
                 sent := [resp0], forwarded := true } := by
      rcases hmiss with habs | ⟨e, he0, hold⟩
      · exact ⟨c0, by
          rw [handleRequest_absent c0 query qname qtype tLookup0 t0 net0 hk habs,
            forwardMiss_reply _ _ _ _ _ _ _ hup]⟩
      · exact ⟨c0.delete (sprintfKey qname qtype), by
          rw [handleRequest_expired c0 query qname qtype e tLookup0 t0 net0 hk he0 hold,
            forwardMiss_reply _ _ _ _ _ _ _ hup]⟩
    obtain ⟨c0', hc0⟩ := hfirst
    obtain ⟨eff1, heff1, hfwd⟩ := forwardMiss_forwarded
      ((c0'.store (sprintfKey qname qtype)
          { msg := resp0, timestamp := t0, ttl := 0 }).delete (sprintfKey qname qtype))
      (sprintfKey qname qtype) query tInsert net
    refine ⟨_, eff1, hc0, resolveUpstream_reply query net0 resp0 0 hup, ?_, hfwd⟩
    rw [← heff1]
    exact second_call _ resp0 (Cache.store_self _ _ _)

/-- Witness of C14: `zeroTtlCache` holds `eightByteReply`, for which `parseTTL` returns
zero, since 5 seconds; at 5 seconds and later the query is forwarded, also right after
the miss that stored the reply. -/
theorem zero_ttl_never_served_witness :
    (∃ eff, handleRequest zeroTtlCache exampleQuery (5 * second) (6 * second)
          Upstream.readError = some eff
        ∧ eff.forwarded = true)
      ∧ ∃ eff0 eff1, handleRequest emptyCache exampleQuery 0 (5 * second)
            (Upstream.reply eightByteReply) = some eff0
          ∧ parseTTL eightByteReply = some 0
          ∧ handleRequest eff0.cache exampleQuery (5 * second) (6 * second)
              Upstream.readError = some eff1
          ∧ eff1.forwarded = true :=
  match zero_ttl_never_served zeroTtlCache exampleQuery (ascii "example.com") 1
      eightByteReply (5 * second) (5 * second) (6 * second) Upstream.readError
      (by decide) (by decide) (by decide) with
  | ⟨⟨_, _, eff, heff, hfwd, _⟩, hagain⟩ =>
    ⟨⟨eff, heff, hfwd⟩,
      hagain emptyCache 0 (Upstream.reply eightByteReply) eightByteReply
        (Or.inl rfl) (by decide)⟩

/-- C15, counterexample. The query `exampleQuery`, with id `0xABCD`, misses the empty
cache and the upstream exchange returns `otherIdReply`, with id `0x1234`: the datagram
sent is `otherIdReply`, and its first two bytes are not those of the query. -/
theorem miss_transaction_id_counterexample :
    2 ≤ exampleQuery.length
      ∧ parseQuery exampleQuery = some (ascii "example.com", 1)
      ∧ emptyCache (sprintfKey (ascii "example.com") 1) = none
      ∧ (resolveUpstream exampleQuery (Upstream.reply otherIdReply)).map (fun r => r.1)
          = some (some otherIdReply)
      ∧ (handleRequest emptyCache exampleQuery 0 0 (Upstream.reply otherIdReply)).map
          (fun eff => eff.sent) = some [otherIdReply]
      ∧ List.take 2 otherIdReply = [0x12, 0x34]
      ∧ List.take 2 exampleQuery = [0xAB, 0xCD] := by
  decide

/-- C15, amended. When a query misses the cache and `resolveUpstream` returns a reply
whose first two bytes are those of the query, the one datagram that `handleRequest`
sends is that reply, so that its first two bytes are those of the query. -/
theorem miss_transaction_id (c : Cache) (query qname : List Byte) (qtype : Nat)
    (tLookup tInsert : Int) (net : Upstream) (resp : List Byte) (ttl : Int)
    (hk : parseQuery query = some (qname, qtype)) (hq : 2 ≤ query.length)
    (hmiss : c (sprintfKey qname qtype) = none
      ∨ ∃ e, c (sprintfKey qname qtype) = some e ∧ e.ttl ≤ since tLookup e.timestamp)
    (hup : resolveUpstream query net = some (some resp, ttl))
    (hecho : resp.take 2 = query.take 2) :
    ∃ eff sentBytes, handleRequest c query tLookup tInsert net = some eff
      ∧ eff.sent = [sentBytes] ∧ sentBytes = resp ∧ sentBytes.take 2 = query.take 2
      ∧ 2 ≤ sentBytes.length := by
  have hlen : 2 ≤ resp.length := by
    have h1 := congrArg List.length hecho
    simp only [List.length_take] at h1
    omega
  rcases hmiss with habs | ⟨e, he, hold⟩
  · rw [handleRequest_absent c query qname qtype tLookup tInsert net hk habs,
      forwardMiss_reply _ _ _ _ _ _ _ hup]
    exact ⟨_, resp, rfl, rfl, rfl, hecho, hlen⟩
  · rw [handleRequest_expired c query qname qtype e tLookup tInsert net hk he hold,
      forwardMiss_reply _ _ _ _ _ _ _ hup]
    exact ⟨_, resp, rfl, rfl, rfl, hecho, hlen⟩

/-- Witness of C15, amended: `exampleQuery` misses the empty cache and the upstream
exchange returns `exampleReply`, which carries the id of the query. -/
theorem miss_transaction_id_witness :
    ∃ eff sentBytes, handleRequest emptyCache exampleQuery 0 0 (Upstream.reply exampleReply)
        = some eff
      ∧ eff.sent = [sentBytes] ∧ sentBytes = exampleReply
      ∧ sentBytes.take 2 = exampleQuery.take 2 ∧ 2 ≤ sentBytes.length :=
  miss_transaction_id emptyCache exampleQuery (ascii "example.com") 1 0 0
    (Upstream.reply exampleReply) exampleReply (65536 * second) (by decide) (by decide)
    (Or.inl rfl) (by decide) (by decide)

/-- C16, counterexample. The query `exampleQuery` misses the empty cache and `conn.Read`
returns a datagram of zero bytes. The result of `resolveUpstream` is the empty slice,
which is not `nil`: `handleRequest` sends one empty datagram and stores an entry under
the key, which held none. -/
theorem empty_reply_counterexample :
    parseQuery exampleQuery = some (ascii "example.com", 1)
      ∧ emptyCache (sprintfKey (ascii "example.com") 1) = none
      ∧ resolveUpstream exampleQuery (Upstream.reply []) = some (some [], 0)
      ∧ (handleRequest emptyCache exampleQuery 0 (7 * second) (Upstream.reply [])).map
          (fun eff => eff.sent) = some [[]]
      ∧ (handleRequest emptyCache exampleQuery 0 (7 * second) (Upstream.reply [])).map
          (fun eff => eff.cache (sprintfKey (ascii "example.com") 1))
          = some (some { msg := [], timestamp := 7 * second, ttl := 0 }) := by
  decide

/-- C16, amended. When a query misses the cache and `resolveUpstream` returns `nil`, the
result of a failed `net.Dial`, `conn.Write` or `conn.Read`, then `handleRequest` sends
nothing and every entry of the cache afterwards was there before. -/
theorem nil_result_drops (c : Cache) (query qname : List Byte) (qtype : Nat)
    (tLookup tInsert : Int) (net : Upstream) (ttl : Int)
    (hk : parseQuery query = some (qname, qtype))
    (hmiss : c (sprintfKey qname qtype) = none
      ∨ ∃ e, c (sprintfKey qname qtype) = some e ∧ e.ttl ≤ since tLookup e.timestamp)
    (hnil : resolveUpstream query net = some (none, ttl)) :
    (net = Upstream.dialError ∨ net = Upstream.writeError ∨ net = Upstream.readError)
      ∧ ∃ eff, handleRequest c query tLookup tInsert net = some eff
          ∧ eff.sent = []
          ∧ ∀ k e, eff.cache k = some e → c k = some e := by
  have hfail : net = Upstream.dialError ∨ net = Upstream.writeError
      ∨ net = Upstream.readError := by
    cases net with
    | dialError => exact Or.inl rfl
    | writeError => exact Or.inr (Or.inl rfl)
    | readError => exact Or.inr (Or.inr rfl)
    | reply datagram =>
      unfold resolveUpstream at hnil
      cases hp : parseTTL (List.take 512 datagram) with
      | none => simp [hp] at hnil
      | some d => simp [hp] at hnil
  refine ⟨hfail, ?_⟩
  rcases hmiss with habs | ⟨e, he, hold⟩
  · rw [handleRequest_absent c query qname qtype tLookup tInsert net hk habs,
      forwardMiss_failure _ _ _ _ _ hfail]
    exact ⟨_, rfl, rfl, fun _ _ h => h⟩
  · rw [handleRequest_expired c query qname qtype e tLookup tInsert net hk he hold,
      forwardMiss_failure _ _ _ _ _ hfail]
    refine ⟨_, rfl, rfl, ?_⟩
    intro k e2 h2
    by_cases hkk : k = sprintfKey qname qtype
    · subst hkk
      have hnone : (c.delete (sprintfKey qname qtype)) (sprintfKey qname qtype) = none :=
        Cache.delete_self _ _
      exact absurd (hnone.symm.trans h2) (by simp)
    · have hsame : (c.delete (sprintfKey qname qtype)) k = c k := Cache.delete_ne _ _ _ hkk
      exact hsame.symm.trans h2

/-- Witness of C16, amended: the expired entry of `exampleCache`, 301 seconds after its
insertion, with a failing `conn.Read`. -/
theorem nil_result_drops_witness :
    (Upstream.readError = Upstream.dialError ∨ Upstream.readError = Upstream.writeError
        ∨ Upstream.readError = Upstream.readError)
      ∧ ∃ eff, handleRequest exampleCache exampleQuery (301 * second) (301 * second)
            Upstream.readError = some eff
          ∧ eff.sent = []
          ∧ ∀ k e, eff.cache k = some e → exampleCache k = some e :=
  nil_result_drops exampleCache exampleQuery (ascii "example.com") 1 (301 * second)
    (301 * second) Upstream.readError 0 (by decide)
    (Or.inr ⟨{ msg := otherIdReply, timestamp := 0, ttl := 300 * second },
      by decide, by decide⟩)
    (by decide)

end DnsResolver
